import Mathlib

/-!
Shallow embedding of the `wordcount` crate (`src/lib.rs`).

The crate exposes a single function

  `pub fn count(input: impl BufRead, option: CountOption) -> HashMap<String, usize>`

together with the three-valued enum `CountOption` and its `Default` impl.

Modelling choices:
* Bytes are `Nat` (each `< 256` in practice); a string is its list of
  Unicode scalar values (`List Nat`), matching Rust's `str::chars`.
* `BufRead::lines()` is modelled byte-exactly: the input byte stream is
  split into segments after every `\n` byte (0x0A), each segment is decoded
  as strict UTF-8 (`String::from_utf8` semantics: overlongs, surrogates and
  codepoints above 0x10FFFF are rejected), and on success a trailing `'\n'`
  is removed, then a trailing `'\r'` if one follows.
* `HashMap<String, usize>` is an association list with unique keys;
  `*freqs.entry(k).or_insert(0) += 1` is `tableIncr`.  The `HashMap` is
  unordered, so table-level claims are stated via lookup (`tableGet`) and
  key membership, never via entry order.
* The source `count` has no error return: on a line that is not valid
  UTF-8, `line.unwrap()` panics (the crate's doc comment `# Panics` and the
  `#[should_panic]` test `word_count_contain_unknown_words` document this).
  A Rust panic is a language-level abrupt termination delivering no value,
  so `count` here returns `CountResult`: either `ok` with the finished
  table, or `panicked` with no table at all.
* The regex `\w` of the `regex` crate is Unicode-aware; the spec leaves the
  exact class open ("the original does not specify it more precisely than
  'matches \w+'").  `isWordChar` fixes the class on the ASCII range
  (letters, digits, underscore), which covers every concrete input in the
  claims; all structural theorems about the scanner are proved for an
  arbitrary class `p` and then instantiated.
-/

/-- The three counting modes of `CountOption` in `src/lib.rs`. -/
inductive CountOption where
  /-- count per Unicode character -/
  | Char
  /-- count per `\w+` word -/
  | Word
  /-- count per line -/
  | Line
deriving DecidableEq, Repr

/-- `impl Default for CountOption` returns `CountOption::Word`. -/
def CountOption.default : CountOption := CountOption.Word

/-- A map key: a string as its list of Unicode scalar values. -/
abbrev Key := List Nat

/-- `HashMap<String, usize>` as an association list with unique keys. -/
abbrev FreqTable := List (Key × Nat)

/-- `*freqs.entry(k).or_insert(0) += 1`: bump `k`'s count, inserting it
with count 1 when absent. -/
def tableIncr : FreqTable → Key → FreqTable
  | [], k => [(k, 1)]
  | (k', n) :: rest, k =>
    if k' = k then (k', n + 1) :: rest else (k', n) :: tableIncr rest k

/-- Lookup in the table, `0` for an absent key (`HashMap::get` with
absent mapped to zero occurrences). -/
def tableGet : FreqTable → Key → Nat
  | [], _ => 0
  | (k', n) :: rest, k => if k' = k then n else tableGet rest k

/-- The multiset of keys present in the table. -/
def tableKeys (t : FreqTable) : List Key := t.map Prod.fst

/-- The sum of all counts in the table. -/
def tableSum (t : FreqTable) : Nat := (t.map Prod.snd).sum

/-- Is `b` a UTF-8 continuation byte (`0x80..0xBF`)? -/
def isCont (b : Nat) : Bool := 128 ≤ b && b < 192

/-- Strict UTF-8 decoding of a byte list into Unicode scalar values,
with `String::from_utf8` semantics: stray continuation bytes, overlong
encodings, surrogates (`0xD800..0xDFFF`) and codepoints above `0x10FFFF`
are all rejected (`none`). -/
def utf8Decode : List Nat → Option (List Nat)
  | [] => some []
  | b :: bs =>
    if b < 128 then
      (utf8Decode bs).map (fun cs => b :: cs)
    else if b < 194 then
      none
    else if b < 224 then
      match bs with
      | b1 :: bs' =>
        if isCont b1 then
          (utf8Decode bs').map (fun cs => ((b - 192) * 64 + (b1 - 128)) :: cs)
        else none
      | [] => none
    else if b < 240 then
      match bs with
      | b1 :: b2 :: bs' =>
        if (if b = 224 then decide (160 ≤ b1) && decide (b1 < 192)
            else if b = 237 then decide (128 ≤ b1) && decide (b1 < 160)
            else isCont b1) && isCont b2 then
          (utf8Decode bs').map
            (fun cs => ((b - 224) * 4096 + (b1 - 128) * 64 + (b2 - 128)) :: cs)
        else none
      | _ => none
    else if b < 245 then
      match bs with
      | b1 :: b2 :: b3 :: bs' =>
        if (if b = 240 then decide (144 ≤ b1) && decide (b1 < 192)
            else if b = 244 then decide (128 ≤ b1) && decide (b1 < 144)
            else isCont b1) && isCont b2 && isCont b3 then
          (utf8Decode bs').map
            (fun cs =>
              ((b - 240) * 262144 + (b1 - 128) * 4096 + (b2 - 128) * 64 +
                (b3 - 128)) :: cs)
        else none
      | _ => none
    else none

/-- `BufRead::lines` segmentation, byte-exact: the input is cut after every
`0x0A` byte; each segment keeps its terminator; a final unterminated
segment is kept, and empty input yields no segment.  Accumulator `cur`
holds the current segment reversed. -/
def splitAfterNLAux (cur : List Nat) : List Nat → List (List Nat)
  | [] => if cur.isEmpty then [] else [cur.reverse]
  | b :: rest =>
    if b = 10 then (b :: cur).reverse :: splitAfterNLAux [] rest
    else splitAfterNLAux (b :: cur) rest

/-- The raw byte lines (terminators included) that `BufRead::lines` reads. -/
def splitAfterNL (bytes : List Nat) : List (List Nat) :=
  splitAfterNLAux [] bytes

/-- The terminator stripping `Lines::next` performs on the decoded line:
drop a trailing `'\n'`, and then a trailing `'\r'` if one remains. -/
def stripNewline (cs : List Nat) : List Nat :=
  if cs.getLast? = some 10 then
    if cs.dropLast.getLast? = some 13 then cs.dropLast.dropLast
    else cs.dropLast
  else cs

/-- The word-character class `\w` on the ASCII range: letters, digits and
the underscore.  (The source's `regex` crate uses the Unicode-aware `\w`;
structural theorems below are proved for an arbitrary class.) -/
def isWordChar (c : Nat) : Bool :=
  (decide (48 ≤ c) && decide (c ≤ 57)) ||
  (decide (65 ≤ c) && decide (c ≤ 90)) ||
  (decide (97 ≤ c) && decide (c ≤ 122)) ||
  decide (c = 95)

/-- The left-to-right scan of `Regex::find_iter` for `\w+`: `cur` holds the
(reversed) run of class characters read so far; a non-class character or
the end of the line emits the pending run.  Produces the list of matches in
order of discovery. -/
def groupRuns (p : Nat → Bool) (cur : List Nat) : List Nat → List (List Nat)
  | [] => if cur.isEmpty then [] else [cur.reverse]
  | c :: rest =>
    if p c then groupRuns p (c :: cur) rest
    else if cur.isEmpty then groupRuns p [] rest
    else cur.reverse :: groupRuns p [] rest

/-- All matches of `\w+`-style scanning with class `p` on a line. -/
def wordMatches (p : Nat → Bool) (line : List Nat) : List (List Nat) :=
  groupRuns p [] line

/-- One iteration of the `for line in input.lines()` loop body: the
`match option` in `count` applied to one (already stripped) line. -/
def tallyLine (option : CountOption) (freqs : FreqTable) (line : List Nat) :
    FreqTable :=
  match option with
  | CountOption.Char => line.foldl (fun t c => tableIncr t [c]) freqs
  | CountOption.Word => (wordMatches isWordChar line).foldl tableIncr freqs
  | CountOption.Line => tableIncr freqs line

/-- Outcome of a `count` call: the source function either returns the
finished `HashMap`, or `line.unwrap()` panics on a line that is not valid
UTF-8 — a language-level abrupt termination that delivers no value to the
caller. -/
inductive CountResult where
  /-- normal return with the finished table -/
  | ok (freqs : FreqTable)
  /-- `line.unwrap()` panicked: no table reaches the caller -/
  | panicked
deriving DecidableEq, Repr

/-- The `for line in input.lines()` loop of `count`, over the raw byte
lines: decode each line (panicking on failure, exactly where
`line.unwrap()` does), strip its terminator, tally it. -/
def countAux (option : CountOption) (freqs : FreqTable) :
    List (List Nat) → CountResult
  | [] => CountResult.ok freqs
  | raw :: rest =>
    match utf8Decode raw with
    | none => CountResult.panicked
    | some cs => countAux option (tallyLine option freqs (stripNewline cs)) rest

/-- `count` on an already line-split input (the spec's "source providing
successive lines of text"). -/
def countLines (raws : List (List Nat)) (option : CountOption) : CountResult :=
  countAux option [] raws

/-- `pub fn count(input, option)` from `src/lib.rs`, on an input byte
stream. -/
def count (input : List Nat) (option : CountOption) : CountResult :=
  countLines (splitAfterNL input) option

/-- Bytes of an ASCII string literal (test-input helper; every character of
the argument must be ASCII for this to be the UTF-8 encoding). -/
def asciiBytes (s : String) : List Nat := s.data.map Char.toNat

/-- The list of units one (already stripped) line contributes under a mode:
its characters (as one-character strings) in `Char` mode, its `\w+` matches
in `Word` mode, the whole line in `Line` mode. -/
def unitsOfLine (option : CountOption) (line : List Nat) : List Key :=
  match option with
  | CountOption.Char => line.map (fun c => [c])
  | CountOption.Word => wordMatches isWordChar line
  | CountOption.Line => [line]

/-- All units contributed by a list of stripped lines, in input order. -/
def allUnits (option : CountOption) : List (List Nat) → List Key
  | [] => []
  | l :: ls => unitsOfLine option l ++ allUnits option ls

/-- All-or-nothing decoding of the raw byte lines: `some` of the decoded,
terminator-stripped lines when every raw line is valid UTF-8, `none` as
soon as any raw line is not. -/
def decodeAll : List (List Nat) → Option (List (List Nat))
  | [] => some []
  | raw :: rest =>
    match utf8Decode raw, decodeAll rest with
    | some cs, some ls => some (stripNewline cs :: ls)
    | _, _ => none

/-- Number of occurrences of the key `k` in a list of units. -/
def occCount (k : Key) : List Key → Nat
  | [] => 0
  | u :: us => occCount k us + (if u = k then 1 else 0)

/-- Every count stored in the table is at least 1. -/
def allPos (t : FreqTable) : Prop := ∀ e ∈ t, 1 ≤ e.2

/-- Modelled from the spec (section 4.1, `Word` mode), for comparison with
the scanner embedded from the source: the line is scanned left-to-right
for maximal non-overlapping runs of word characters — a match starts at
the first class character and extends as far as possible (`takeWhile`),
and the scan resumes after it (`dropWhile`). -/
def wordMatchesSpec (p : Nat → Bool) : List Nat → List (List Nat)
  | [] => []
  | c :: rest =>
    if p c then
      (c :: rest.takeWhile p) :: wordMatchesSpec p (rest.dropWhile p)
    else
      wordMatchesSpec p rest
termination_by l => l.length
decreasing_by
  · exact Nat.lt_succ_of_le (List.dropWhile_sublist p).length_le
  · exact Nat.lt_succ_self _

/-! Helper lemmas about the table operations. -/

theorem tableSum_tableIncr (t : FreqTable) (k : Key) :
    tableSum (tableIncr t k) = tableSum t + 1 := by
  induction t with
  | nil => simp [tableIncr, tableSum]
  | cons e rest ih =>
    obtain ⟨k', n⟩ := e
    by_cases h : k' = k <;> simp [tableIncr, tableSum, h] <;>
      simp [tableSum] at ih <;> omega

theorem tableSum_foldl_tableIncr (us : List Key) :
    ∀ t : FreqTable, tableSum (us.foldl tableIncr t) = tableSum t + us.length := by
  induction us with
  | nil => intro t; simp
  | cons u us ih =>
    intro t
    simp only [List.foldl_cons, List.length_cons, ih, tableSum_tableIncr]
    omega

theorem tableGet_tableIncr (t : FreqTable) (k k' : Key) :
    tableGet (tableIncr t k) k' = tableGet t k' + (if k = k' then 1 else 0) := by
  induction t with
  | nil => simp [tableIncr, tableGet]
  | cons e rest ih =>
    obtain ⟨a, n⟩ := e
    by_cases ha : a = k
    · subst ha
      by_cases h' : a = k' <;> simp [tableIncr, tableGet, h']
    · by_cases h' : a = k'
      · subst h'
        have hka : ¬ k = a := fun hh => ha hh.symm
        simp [tableIncr, tableGet, ha, hka]
      · simp [tableIncr, tableGet, ha, h', ih]

theorem tableGet_foldl_tableIncr (us : List Key) :
    ∀ (t : FreqTable) (k : Key),
      tableGet (us.foldl tableIncr t) k = tableGet t k + occCount k us := by
  induction us with
  | nil => intro t k; simp [occCount]
  | cons u us ih =>
    intro t k
    simp only [List.foldl_cons, occCount, ih, tableGet_tableIncr]
    by_cases hu : u = k
    · simp only [if_pos hu]; omega
    · simp only [if_neg hu]; omega

theorem tableIncr_allPos {t : FreqTable} (h : allPos t) (k : Key) :
    allPos (tableIncr t k) := by
  induction t with
  | nil => intro e he; simp [tableIncr] at he; simp [he]
  | cons a rest ih =>
    obtain ⟨k', n⟩ := a
    by_cases hk : k' = k
    · intro e he
      simp [tableIncr, hk] at he
      rcases he with he | he
      · simp [he]
      · exact h e (List.mem_cons_of_mem _ he)
    · intro e he
      simp [tableIncr, hk] at he
      rcases he with he | he
      · subst he; exact h (k', n) (List.mem_cons_self _ _)
      · exact ih (fun e' he' => h e' (List.mem_cons_of_mem _ he')) e he

theorem foldl_tableIncr_allPos (us : List Key) :
    ∀ {t : FreqTable}, allPos t → allPos (us.foldl tableIncr t) := by
  induction us with
  | nil => intro t h; simpa using h
  | cons u us ih =>
    intro t h
    exact ih (tableIncr_allPos h u)

theorem mem_tableKeys_iff_one_le_tableGet {t : FreqTable} (h : allPos t)
    (k : Key) : k ∈ tableKeys t ↔ 1 ≤ tableGet t k := by
  induction t with
  | nil => simp [tableKeys, tableGet]
  | cons e rest ih =>
    obtain ⟨k', n⟩ := e
    by_cases hk : k' = k
    · subst hk
      have hn : 1 ≤ n := h (k', n) (List.mem_cons_self _ _)
      simp [tableKeys, tableGet, hn]
    · have htail : allPos rest := fun e' he' => h e' (List.mem_cons_of_mem _ he')
      have hne : ¬ k = k' := fun hh => hk hh.symm
      simp only [tableKeys, List.map_cons, List.mem_cons, tableGet, if_neg hk,
        hne, false_or]
      exact ih htail

theorem tallyLine_eq_foldl (option : CountOption) (freqs : FreqTable)
    (line : List Nat) :
    tallyLine option freqs line = (unitsOfLine option line).foldl tableIncr freqs := by
  cases option with
  | Char => simp [tallyLine, unitsOfLine, List.foldl_map]
  | Word => rfl
  | Line => simp [tallyLine, unitsOfLine]

theorem tableSum_tallyLine (option : CountOption) (freqs : FreqTable)
    (line : List Nat) :
    tableSum (tallyLine option freqs line)
      = tableSum freqs + (unitsOfLine option line).length := by
  rw [tallyLine_eq_foldl, tableSum_foldl_tableIncr]

theorem tableGet_tallyLine (option : CountOption) (freqs : FreqTable)
    (line : List Nat) (k : Key) :
    tableGet (tallyLine option freqs line) k
      = tableGet freqs k + occCount k (unitsOfLine option line) := by
  rw [tallyLine_eq_foldl, tableGet_foldl_tableIncr]

theorem occCount_append (k : Key) (us vs : List Key) :
    occCount k (us ++ vs) = occCount k us + occCount k vs := by
  induction us with
  | nil => simp [occCount]
  | cons u us ih =>
    rw [List.cons_append]
    simp only [occCount]
    rw [ih]
    omega

theorem allUnits_append (option : CountOption) (A B : List (List Nat)) :
    allUnits option (A ++ B) = allUnits option A ++ allUnits option B := by
  induction A with
  | nil => simp [allUnits]
  | cons l A ih => simp [allUnits, ih]

theorem tableSum_foldl_tallyLine (option : CountOption) (ls : List (List Nat)) :
    ∀ freqs : FreqTable,
      tableSum (ls.foldl (tallyLine option) freqs)
        = tableSum freqs + (allUnits option ls).length := by
  induction ls with
  | nil => intro freqs; simp [allUnits]
  | cons l ls ih =>
    intro freqs
    simp only [List.foldl_cons, ih, tableSum_tallyLine, allUnits,
      List.length_append]
    omega

theorem tableGet_foldl_tallyLine (option : CountOption) (ls : List (List Nat)) :
    ∀ (freqs : FreqTable) (k : Key),
      tableGet (ls.foldl (tallyLine option) freqs) k
        = tableGet freqs k + occCount k (allUnits option ls) := by
  induction ls with
  | nil => intro freqs k; simp [allUnits, occCount]
  | cons l ls ih =>
    intro freqs k
    simp only [List.foldl_cons, ih, tableGet_tallyLine, allUnits, occCount_append]
    omega

theorem tallyLine_allPos {freqs : FreqTable} (h : allPos freqs)
    (option : CountOption) (line : List Nat) :
    allPos (tallyLine option freqs line) := by
  rw [tallyLine_eq_foldl]
  exact foldl_tableIncr_allPos _ h

theorem foldl_tallyLine_allPos (option : CountOption) (ls : List (List Nat)) :
    ∀ {freqs : FreqTable}, allPos freqs → allPos (ls.foldl (tallyLine option) freqs) := by
  induction ls with
  | nil => intro freqs h; simpa using h
  | cons l ls ih => intro freqs h; exact ih (tallyLine_allPos h option l)

theorem countAux_ok_iff (option : CountOption) (raws : List (List Nat)) :
    ∀ (freqs tbl : FreqTable),
      countAux option freqs raws = CountResult.ok tbl
        ↔ ∃ ls, decodeAll raws = some ls
            ∧ tbl = ls.foldl (tallyLine option) freqs := by
  induction raws with
  | nil =>
    intro freqs tbl
    simp [countAux, decodeAll]
    constructor
    · intro h; exact h.symm
    · intro h; exact h.symm
  | cons raw rest ih =>
    intro freqs tbl
    cases hdec : utf8Decode raw with
    | none => simp [countAux, decodeAll, hdec]
    | some cs =>
      cases hrest : decodeAll rest with
      | none =>
        simp only [countAux, hdec, decodeAll, hrest, ih]
        simp
      | some ls' =>
        simp only [countAux, hdec, decodeAll, hrest, ih]
        simp [hrest]

theorem countAux_panicked_iff (option : CountOption) (raws : List (List Nat)) :
    ∀ freqs : FreqTable,
      countAux option freqs raws = CountResult.panicked
        ↔ ∃ raw ∈ raws, utf8Decode raw = none := by
  induction raws with
  | nil => intro freqs; simp [countAux]
  | cons raw rest ih =>
    intro freqs
    cases hdec : utf8Decode raw with
    | none => simp [countAux, hdec]
    | some cs => simp [countAux, hdec, ih]

theorem groupRuns_eq_spec (p : Nat → Bool) (l : List Nat) :
    ∀ cur : List Nat,
      groupRuns p cur l =
        if cur.isEmpty then wordMatchesSpec p l
        else (cur.reverse ++ l.takeWhile p) :: wordMatchesSpec p (l.dropWhile p) := by
  induction l with
  | nil =>
    intro cur
    cases cur <;> simp [groupRuns, wordMatchesSpec]
  | cons c rest ih =>
    intro cur
    by_cases hp : p c = true
    · have h1 : groupRuns p cur (c :: rest) = groupRuns p (c :: cur) rest := by
        simp [groupRuns, hp]
      rw [h1, ih (c :: cur)]
      cases cur <;>
        simp [wordMatchesSpec, hp, List.takeWhile_cons, List.dropWhile_cons]
    · have hp' : p c = false := by simpa using hp
      cases cur with
      | nil =>
        have h1 : groupRuns p [] (c :: rest) = groupRuns p [] rest := by
          simp [groupRuns, hp']
        rw [h1, ih []]
        simp [wordMatchesSpec, hp']
      | cons a as =>
        have h1 : groupRuns p (a :: as) (c :: rest)
            = (a :: as).reverse :: groupRuns p [] rest := by
          simp [groupRuns, hp']
        rw [h1, ih []]
        simp [wordMatchesSpec, hp', List.takeWhile_cons, List.dropWhile_cons]

theorem groupRuns_sound (p : Nat → Bool) (l : List Nat) :
    ∀ cur : List Nat, (∀ c ∈ cur, p c = true) →
      ∀ w ∈ groupRuns p cur l, w ≠ [] ∧ ∀ c ∈ w, p c = true := by
  induction l with
  | nil =>
    intro cur hcur w hw
    cases cur with
    | nil => simp [groupRuns] at hw
    | cons a as =>
      simp only [groupRuns, List.isEmpty_cons, if_neg] at hw
      simp at hw
      subst hw
      refine ⟨by simp, ?_⟩
      intro c hc
      simp at hc
      rcases hc with h | h
      · exact hcur c (List.mem_cons_of_mem _ h)
      · subst h; exact hcur c (List.mem_cons_self _ _)
  | cons c rest ih =>
    intro cur hcur w hw
    by_cases hp : p c = true
    · have h1 : groupRuns p cur (c :: rest) = groupRuns p (c :: cur) rest := by
        simp [groupRuns, hp]
      rw [h1] at hw
      refine ih (c :: cur) ?_ w hw
      intro d hd
      rcases List.mem_cons.mp hd with h | h
      · subst h; exact hp
      · exact hcur d h
    · have hp' : p c = false := by simpa using hp
      cases cur with
      | nil =>
        have h1 : groupRuns p [] (c :: rest) = groupRuns p [] rest := by
          simp [groupRuns, hp']
        rw [h1] at hw
        exact ih [] (by simp) w hw
      | cons a as =>
        have h1 : groupRuns p (a :: as) (c :: rest)
            = (a :: as).reverse :: groupRuns p [] rest := by
          simp [groupRuns, hp']
        rw [h1] at hw
        rcases List.mem_cons.mp hw with h | h
        · subst h
          refine ⟨by simp, ?_⟩
          intro d hd
          simp at hd
          rcases hd with h | h
          · exact hcur d (List.mem_cons_of_mem _ h)
          · subst h; exact hcur d (List.mem_cons_self _ _)
        · exact ih [] (by simp) w h

theorem groupRuns_nil_of_no_class (p : Nat → Bool) (l : List Nat)
    (h : ∀ c ∈ l, p c = false) : groupRuns p [] l = [] := by
  induction l with
  | nil => simp [groupRuns]
  | cons c rest ih =>
    have hc : p c = false := h c (List.mem_cons_self _ _)
    simp only [groupRuns, hc]
    simp
    exact ih (fun d hd => h d (List.mem_cons_of_mem _ hd))

theorem wordMatches_eq_spec (p : Nat → Bool) (l : List Nat) :
    wordMatches p l = wordMatchesSpec p l := by
  simpa using groupRuns_eq_spec p l []

theorem wordMatches_sound (p : Nat → Bool) (l : List Nat) :
    ∀ w ∈ wordMatches p l, w ≠ [] ∧ ∀ c ∈ w, p c = true :=
  groupRuns_sound p l [] (by simp)

theorem wordMatches_nil_of_no_class (p : Nat → Bool) (l : List Nat)
    (h : ∀ c ∈ l, p c = false) : wordMatches p l = [] :=
  groupRuns_nil_of_no_class p l h

theorem decodeAll_append (A B : List (List Nat)) :
    decodeAll (A ++ B)
      = (decodeAll A).bind (fun la => (decodeAll B).map (fun lb => la ++ lb)) := by
  induction A with
  | nil =>
    simp only [List.nil_append, decodeAll, Option.some_bind]
    cases decodeAll B <;> simp
  | cons raw A ih =>
    cases hdec : utf8Decode raw with
    | none => simp [decodeAll, hdec]
    | some cs =>
      cases hA : decodeAll A with
      | none => simp [decodeAll, hdec, hA, ih]
      | some la =>
        cases hB : decodeAll B with
        | none => simp [decodeAll, hdec, hA, hB, ih]
        | some lb => simp [decodeAll, hdec, hA, hB, ih]

/-! The claims. -/

/-- C1 (counterexample): at the invalid-UTF-8 input of the spec's own test
(byte `0x61`, then `0xF0 0x90 0x80`, then `0xE3 0x81 0x82`), `count` ends
in `CountResult.panicked` — `line.unwrap()` panics, a language-level abrupt
termination — and not in a typed `DecodingError` failure value: the source
function's return type (`HashMap<String, usize>`, embedded as the `ok`
constructor) has no error variant at all. -/
theorem count_panics_on_invalid_utf8_test_input :
    count [97, 240, 144, 128, 227, 129, 130] CountOption.Word
      = CountResult.panicked := by decide

/-- C1 (amended): if any line of the input cannot be decoded as valid
UTF-8, `count` aborts the entire call by panicking (the language-level
abrupt termination documented by the crate's `# Panics` section), so the
caller receives no table at all: no line is skipped, no replacement
character is substituted, and no per-line recovery occurs. -/
theorem invalid_utf8_aborts_whole_call_by_panic (input : List Nat)
    (option : CountOption)
    (h : ∃ raw ∈ splitAfterNL input, utf8Decode raw = none) :
    count input option = CountResult.panicked :=
  (countAux_panicked_iff option (splitAfterNL input) []).mpr h

theorem invalid_utf8_aborts_whole_call_by_panic_witness :
    (∃ raw ∈ splitAfterNL [97, 240, 144, 128, 227, 129, 130],
        utf8Decode raw = none)
      ∧ count [97, 240, 144, 128, 227, 129, 130] CountOption.Word
          = CountResult.panicked :=
  ⟨by decide, invalid_utf8_aborts_whole_call_by_panic _ _ (by decide)⟩

/-- C2: whenever `count` returns a table, the input decoded fully, and the
sum of all counts in the table equals the total number of matched units
encountered for the mode: characters read in `Char` mode, `\w+` matches in
`Word` mode, lines read in `Line` mode — nothing double-counted, nothing
dropped. -/
theorem table_sum_eq_total_units (input : List Nat) (option : CountOption)
    (t : FreqTable) (h : count input option = CountResult.ok t) :
    ∃ ls, decodeAll (splitAfterNL input) = some ls
      ∧ tableSum t = (allUnits option ls).length := by
  obtain ⟨ls, hls, ht⟩ :=
    (countAux_ok_iff option (splitAfterNL input) [] t).mp h
  refine ⟨ls, hls, ?_⟩
  subst ht
  simpa [tableSum] using tableSum_foldl_tallyLine option ls []

theorem table_sum_eq_total_units_witness :
    count (asciiBytes "aa bb cc bb") CountOption.Word
        = CountResult.ok
            [(asciiBytes "aa", 1), (asciiBytes "bb", 2), (asciiBytes "cc", 1)]
      ∧ ∃ ls, decodeAll (splitAfterNL (asciiBytes "aa bb cc bb")) = some ls
          ∧ tableSum
              [(asciiBytes "aa", 1), (asciiBytes "bb", 2), (asciiBytes "cc", 1)]
              = (allUnits CountOption.Word ls).length :=
  ⟨by decide, table_sum_eq_total_units _ _ _ (by decide)⟩

/-- C3: in `Word` mode each line is tallied by exactly the maximal
non-overlapping left-to-right matches of the word-character class: the
source scan equals the spec-side maximal-run scan, every match is a
nonempty run of word characters (so each maximal match bumps its key by
exactly one), a line with no word characters contributes zero units, and
the spec's example input yields exactly its table. -/
theorem word_mode_tallies_maximal_matches (line : List Nat)
    (freqs : FreqTable) :
    tallyLine CountOption.Word freqs line
        = (wordMatches isWordChar line).foldl tableIncr freqs
      ∧ wordMatches isWordChar line = wordMatchesSpec isWordChar line
      ∧ (∀ w ∈ wordMatches isWordChar line,
          w ≠ [] ∧ ∀ c ∈ w, isWordChar c = true)
      ∧ ((∀ c ∈ line, isWordChar c = false) →
          tallyLine CountOption.Word freqs line = freqs)
      ∧ count (asciiBytes "aa bb cc bb") CountOption.Word
          = CountResult.ok
              [(asciiBytes "aa", 1), (asciiBytes "bb", 2), (asciiBytes "cc", 1)] := by
  refine ⟨rfl, wordMatches_eq_spec _ _, wordMatches_sound _ _, ?_, by decide⟩
  intro h
  simp [tallyLine, wordMatches_nil_of_no_class isWordChar line h]

theorem word_mode_tallies_maximal_matches_witness :
    (∀ c ∈ asciiBytes ", .", isWordChar c = false)
      ∧ tallyLine CountOption.Word [] (asciiBytes ", .") = [] :=
  ⟨by decide,
    (word_mode_tallies_maximal_matches (asciiBytes ", .") []).2.2.2.1 (by decide)⟩

/-- C4: in `Char` mode a line is decomposed into its Unicode scalar values
and one unit is counted per scalar value (so the tally adds exactly
`line.length` to the table sum, an empty line adds nothing), and the input
of two copies of the two-byte character U+00E9 yields exactly one key — the
character's one-character string — with count 2, not a byte count. -/
theorem char_mode_counts_scalar_values (line : List Nat) (freqs : FreqTable) :
    tallyLine CountOption.Char freqs line
        = line.foldl (fun t c => tableIncr t [c]) freqs
      ∧ tableSum (tallyLine CountOption.Char freqs line)
          = tableSum freqs + line.length
      ∧ tallyLine CountOption.Char freqs [] = freqs
      ∧ count [195, 169, 195, 169] CountOption.Char
          = CountResult.ok [([233], 2)] := by
  refine ⟨rfl, ?_, rfl, by decide⟩
  rw [tableSum_tallyLine]
  simp [unitsOfLine]

/-- C5: in `Line` mode each line, with its terminator already stripped, is
exactly one unit (also when empty): the tally is a single increment of the
whole-line key; the line reader strips `\r\n` and `\n`; and on the spec's
example input `Line` mode and `Word` mode yield exactly the spec's two
tables. -/
theorem line_mode_whole_line_units (cs : List Nat) (freqs : FreqTable) :
    tallyLine CountOption.Line freqs cs = tableIncr freqs cs
      ∧ stripNewline (cs ++ [13, 10]) = cs
      ∧ (cs.getLast? ≠ some 13 → stripNewline (cs ++ [10]) = cs)
      ∧ count (asciiBytes "foo bar\nfoo bar\nbaz") CountOption.Line
          = CountResult.ok [(asciiBytes "foo bar", 2), (asciiBytes "baz", 1)]
      ∧ count (asciiBytes "foo bar\nfoo bar\nbaz") CountOption.Word
          = CountResult.ok
              [(asciiBytes "foo", 2), (asciiBytes "bar", 2),
                (asciiBytes "baz", 1)] := by
  refine ⟨rfl, ?_, ?_, by decide, by decide⟩
  · have h : cs ++ [13, 10] = (cs ++ [13]) ++ [10] := by simp
    rw [h]
    simp [stripNewline, List.getLast?_concat, List.dropLast_concat]
  · intro h
    simp [stripNewline, List.getLast?_concat, List.dropLast_concat, h]

theorem line_mode_whole_line_units_witness :
    (asciiBytes "ab").getLast? ≠ some 13
      ∧ stripNewline (asciiBytes "ab" ++ [10]) = asciiBytes "ab" :=
  ⟨by decide, (line_mode_whole_line_units (asciiBytes "ab") []).2.2.1 (by decide)⟩

/-- C6: every key present in a table returned by `count` is mapped to a
count of at least 1; no key is ever present with count 0. -/
theorem table_counts_at_least_one (input : List Nat) (option : CountOption)
    (t : FreqTable) (h : count input option = CountResult.ok t) :
    ∀ k n, (k, n) ∈ t → 1 ≤ n := by
  obtain ⟨ls, hls, ht⟩ :=
    (countAux_ok_iff option (splitAfterNL input) [] t).mp h
  subst ht
  intro k n hmem
  exact foldl_tallyLine_allPos option ls
    (by intro e he; exact absurd he (List.not_mem_nil e)) (k, n) hmem

theorem table_counts_at_least_one_witness :
    count (asciiBytes "aa") CountOption.Word
        = CountResult.ok [(asciiBytes "aa", 1)]
      ∧ 1 ≤ 1 :=
  ⟨by decide,
    table_counts_at_least_one (asciiBytes "aa") CountOption.Word
      [(asciiBytes "aa", 1)] (by decide) (asciiBytes "aa") 1 (by decide)⟩

/-- C7: for empty input, `count` returns an empty table (no keys) in every
mode — `Char`, `Word` and `Line` alike. -/
theorem empty_input_gives_empty_table (option : CountOption) :
    count [] option = CountResult.ok [] := rfl

/-- C8: the default value of `CountOption` is `Word`, so when no mode is
explicitly specified the effective mode used by `count` is `Word`. -/
theorem default_mode_is_word :
    CountOption.default = CountOption.Word
      ∧ ∀ input : List Nat,
          count input CountOption.default = count input CountOption.Word :=
  ⟨rfl, fun _ => rfl⟩

/-- C9: `count` is deterministic: two invocations on the same input bytes
and mode that return tables return tables with identical key sets and
identical counts per key — the result depends only on the input bytes and
the mode. -/
theorem count_deterministic (input : List Nat) (option : CountOption)
    (t₁ t₂ : FreqTable) (h₁ : count input option = CountResult.ok t₁)
    (h₂ : count input option = CountResult.ok t₂) :
    tableKeys t₁ = tableKeys t₂ ∧ ∀ k, tableGet t₁ k = tableGet t₂ k := by
  have h : CountResult.ok t₁ = CountResult.ok t₂ := h₁.symm.trans h₂
  cases h
  exact ⟨rfl, fun _ => rfl⟩

theorem count_deterministic_witness :
    count (asciiBytes "aa") CountOption.Word
        = CountResult.ok [(asciiBytes "aa", 1)]
      ∧ (tableKeys [(asciiBytes "aa", 1)] = tableKeys [(asciiBytes "aa", 1)]
          ∧ ∀ k, tableGet [(asciiBytes "aa", 1)] k
              = tableGet [(asciiBytes "aa", 1)] k) :=
  ⟨by decide,
    count_deterministic (asciiBytes "aa") CountOption.Word _ _ (by decide)
      (by decide)⟩

/-- C10: counting is a homomorphism over line sequences: if two line
sequences each count to a table, their concatenation counts to the merge of
the two tables — the count of every key is the sum of its counts in the two
tables, and the key set is the union of the two key sets. -/
theorem count_concat_is_table_merge (A B : List (List Nat))
    (option : CountOption) (ta tb : FreqTable)
    (ha : countLines A option = CountResult.ok ta)
    (hb : countLines B option = CountResult.ok tb) :
    ∃ t, countLines (A ++ B) option = CountResult.ok t
      ∧ (∀ k, tableGet t k = tableGet ta k + tableGet tb k)
      ∧ (∀ k, k ∈ tableKeys t ↔ (k ∈ tableKeys ta ∨ k ∈ tableKeys tb)) := by
  obtain ⟨la, hla, hta⟩ := (countAux_ok_iff option A [] ta).mp ha
  obtain ⟨lb, hlb, htb⟩ := (countAux_ok_iff option B [] tb).mp hb
  have hd : decodeAll (A ++ B) = some (la ++ lb) := by
    rw [decodeAll_append, hla, hlb]; rfl
  have h0 : allPos ([] : FreqTable) :=
    fun e he => absurd he (List.not_mem_nil e)
  refine ⟨(la ++ lb).foldl (tallyLine option) [],
    (countAux_ok_iff option (A ++ B) [] _).mpr ⟨la ++ lb, hd, rfl⟩, ?_, ?_⟩
  · intro k
    subst hta htb
    simp only [tableGet_foldl_tallyLine, allUnits_append, occCount_append]
    simp [tableGet]
  · intro k
    subst hta htb
    rw [mem_tableKeys_iff_one_le_tableGet (foldl_tallyLine_allPos option _ h0),
      mem_tableKeys_iff_one_le_tableGet (foldl_tallyLine_allPos option _ h0),
      mem_tableKeys_iff_one_le_tableGet (foldl_tallyLine_allPos option _ h0)]
    simp only [tableGet_foldl_tallyLine, allUnits_append, occCount_append]
    simp [tableGet]
    omega

theorem count_concat_is_table_merge_witness :
    countLines [[97]] CountOption.Word = CountResult.ok [([97], 1)]
      ∧ ∃ t, countLines ([[97]] ++ [[97]]) CountOption.Word = CountResult.ok t
          ∧ (∀ k, tableGet t k
              = tableGet [([97], 1)] k + tableGet [([97], 1)] k)
          ∧ (∀ k, k ∈ tableKeys t
              ↔ (k ∈ tableKeys [([97], 1)] ∨ k ∈ tableKeys [([97], 1)])) :=
  ⟨by decide,
    count_concat_is_table_merge [[97]] [[97]] CountOption.Word _ _ (by decide)
      (by decide)⟩
